import Mathlib

/-!
Verification of the token-indexing and neighborhood-generation engine of
lime_text.py (classes IndexedString and LimeTextExplainer).

Strings are modelled as lists of characters.  A word character follows
the regex class of backslash-w restricted to ASCII: alphanumeric or
underscore; the documents appearing in the specification are ASCII.
-/

set_option maxHeartbeats 1000000

namespace LimeText

/-- Word character: models the regex class backslash-w (alphanumeric or
underscore), as used by the patterns in IndexedString.__init__. -/
def isW (c : Char) : Bool := c.isAlphanum || c == '_'

/-- Models re.compile(non-word-run).match applied to a token: true iff the
token is nonempty and starts with a non-word character.  Because tokens
produced by the splitter are homogeneous runs, this classifies a token as
a separator token. -/
def nonWordTok (t : List Char) : Bool :=
  match t with
  | [] => false
  | c :: _ => ! isW c

/-- One step of grouping a string into maximal runs of characters of the
same class (word or non-word); used to model re.split with a captured
separator group. -/
def addToRuns (c : Char) (rs : List (List Char)) : List (List Char) :=
  match rs with
  | [] => [[c]]
  | r :: rest =>
    match r with
    | [] => [c] :: rest
    | d :: _ => if isW c == isW d then (c :: r) :: rest else [c] :: r :: rest

/-- Maximal runs of same-class characters, left to right. -/
def runs (s : List Char) : List (List Char) := s.foldr addToRuns []

/-- Models Python re.split on the pattern capturing non-word runs, as in
IndexedString.__init__ (self.as_list).  The result alternates word tokens
and separator tokens, starting and ending with a (possibly empty) word
token, and concatenates back to the input. -/
def pySplit (s : List Char) : List (List Char) :=
  let rs := runs s
  let rs1 :=
    match rs with
    | [] => [[]]
    | r :: _ => if nonWordTok r then [] :: rs else rs
  match rs1.getLast? with
  | some r => if nonWordTok r then rs1 ++ [[]] else rs1
  | none => rs1

/-- Python-style enumerate starting at a given index. -/
def enumF (n : Nat) : List α → List (Nat × α)
  | [] => []
  | x :: xs => (n, x) :: enumF (n + 1) xs

/-- Python list (and numpy 1-d array) indexing: non-negative indices from
the front, negative indices counted from the back, out-of-range fails. -/
def pyGet (l : List α) (i : Int) : Option α :=
  if 0 ≤ i then l.get? i.toNat
  else if (-i).toNat ≤ l.length then l.get? (l.length - (-i).toNat) else none

/-- Option-valued map over a list, failing when any element fails; models
a Python list comprehension in which element evaluation may raise. -/
def optMap (f : α → Option β) : List α → Option (List β)
  | [] => some []
  | x :: xs =>
    match f x, optMap f xs with
    | some y, some ys => some (y :: ys)
    | _, _ => none

/-- First-occurrence-order list of distinct elements, as accumulated by the
vocab dictionary of IndexedString.__init__. -/
def firstDedup [DecidableEq α] (l : List α) : List α :=
  l.foldl (fun acc x => if x ∈ acc then acc else acc ++ [x]) []

/-- Cumulative character start offsets of the tokens: position k holds the
total length of the tokens before token k.  Models self.string_start,
built as a zero prepended to the cumulative sum of all but the last
token length. -/
def stringStart (toks : List (List Char)) : List Nat :=
  (List.range toks.length).map (fun k => ((toks.take k).map List.length).sum)

/-- Index of the first occurrence of an element, modelling the feature id
stored in the vocab dictionary of IndexedString.__init__. -/
def vocabIdx [DecidableEq α] (w : α) : List α → Nat
  | [] => 0
  | x :: xs => if x = w then 0 else vocabIdx w xs + 1

/-- Mutable loop state of IndexedString.__init__ in bag-of-words mode:
the inverse vocabulary, the per-feature token-index lists (self.positions)
and the memo set of already-classified separator tokens (non_vocab). -/
structure BowState where
  inverse_vocab : List (List Char)
  positions : List (List Nat)
  non_vocab : List (List Char)

/-- One iteration of the indexing loop in bag-of-words mode, for the token
w at token index i.  Follows IndexedString.__init__ line by line: skip
memoized separators, memoize and skip separator tokens, otherwise insert
the word into the vocabulary on first sight and append the token index to
its occurrence list.  The dictionary lookup vocab[word] is realized as the
index of the word in the inverse vocabulary, which is exactly the id the
dictionary stores. -/
def bowStep (st : BowState) (i : Nat) (w : List Char) : BowState :=
  if w ∈ st.non_vocab then st
  else if nonWordTok w then { st with non_vocab := w :: st.non_vocab }
  else
    let iv := if w ∈ st.inverse_vocab then st.inverse_vocab else st.inverse_vocab ++ [w]
    let ps := if w ∈ st.inverse_vocab then st.positions else st.positions ++ [[]]
    let idx := vocabIdx w iv
    { inverse_vocab := iv
      positions := ps.set idx (ps.getD idx [] ++ [i])
      non_vocab := st.non_vocab }

/-- The indexing loop of IndexedString.__init__ in bag-of-words mode. -/
def buildBow : Nat → List (List Char) → BowState → BowState
  | _, [], st => st
  | i, w :: ws, st => buildBow (i + 1) ws (bowStep st i w)

/-- Mutable loop state of IndexedString.__init__ in positional mode: here
self.positions is a flat list holding one token index per feature. -/
structure PosState where
  inverse_vocab : List (List Char)
  positions : List Nat
  non_vocab : List (List Char)

/-- One iteration of the indexing loop in positional mode: every non-skipped
word occurrence becomes a fresh feature. -/
def posStep (st : PosState) (i : Nat) (w : List Char) : PosState :=
  if w ∈ st.non_vocab then st
  else if nonWordTok w then { st with non_vocab := w :: st.non_vocab }
  else { st with inverse_vocab := st.inverse_vocab ++ [w]
                 positions := st.positions ++ [i] }

/-- The indexing loop of IndexedString.__init__ in positional mode. -/
def buildPos : Nat → List (List Char) → PosState → PosState
  | _, [], st => st
  | i, w :: ws, st => buildPos (i + 1) ws (posStep st i w)

/-- Model of the IndexedString object.  The Python attribute self.positions
is dynamically typed: a list of lists of token indices in bag-of-words
mode and a flat integer array in positional mode; it is modelled as the
two fields positions_bow and positions_pos, of which only the one selected
by the bow flag is populated and consulted. -/
structure IndexedString where
  raw : List Char
  as_list : List (List Char)
  string_start : List Nat
  bow : Bool
  inverse_vocab : List (List Char)
  positions_bow : List (List Nat)
  positions_pos : List Nat

/-- Models IndexedString.__init__: split the raw string into alternating
word and separator tokens, record cumulative offsets, and run the indexing
loop corresponding to the mode flag. -/
def mkIndexedString (raw : List Char) (bow : Bool) : IndexedString :=
  let as_list := pySplit raw
  if bow then
    let st := buildBow 0 as_list ⟨[], [], []⟩
    { raw := raw
      as_list := as_list
      string_start := stringStart as_list
      bow := true
      inverse_vocab := st.inverse_vocab
      positions_bow := st.positions
      positions_pos := [] }
  else
    let st := buildPos 0 as_list ⟨[], [], []⟩
    { raw := raw
      as_list := as_list
      string_start := stringStart as_list
      bow := false
      inverse_vocab := st.inverse_vocab
      positions_bow := []
      positions_pos := st.positions }

/-- Models IndexedString.raw_string. -/
def IndexedString.raw_string (d : IndexedString) : List Char := d.raw

/-- Models IndexedString.num_words, the number of features. -/
def IndexedString.num_words (d : IndexedString) : Nat := d.inverse_vocab.length

/-- Models IndexedString.word (the feature_text operation of the spec):
a Python list subscript on self.inverse_vocab, which fails for indices
outside the Python range and resolves negative indices from the back. -/
def IndexedString.word (d : IndexedString) (id : Int) : Option (List Char) :=
  pyGet d.inverse_vocab id

/-- Models IndexedString.string_position (the feature_positions operation
of the spec): character start offsets of the occurrences of a feature. -/
def IndexedString.string_position (d : IndexedString) (id : Int) : Option (List Nat) :=
  if d.bow then
    (pyGet d.positions_bow id).map (fun ps => ps.map (fun t => d.string_start.getD t 0))
  else
    (pyGet d.positions_pos id).map (fun t => [d.string_start.getD t 0])

/-- Models IndexedString.__get_idxs: resolve feature ids to token indices,
chaining the per-feature occurrence lists in bag-of-words mode and using
numpy fancy indexing on the flat position array in positional mode. -/
def IndexedString.getIdxs (d : IndexedString) (words : List Int) : Option (List Nat) :=
  if d.bow then (optMap (pyGet d.positions_bow) words).map List.flatten
  else optMap (pyGet d.positions_pos) words

/-- Models IndexedString.inverse_removing (the remove operation of the
spec): mask out the token positions of the requested features and join
the remaining tokens in original order. -/
def IndexedString.inverse_removing (d : IndexedString) (words_to_remove : List Int) :
    Option (List Char) :=
  (d.getIdxs words_to_remove).map (fun idxs =>
    (((enumF 0 d.as_list).filter (fun p => ! idxs.contains p.1)).map Prod.snd).flatten)

/-- A word token: a token that the separator test does not match. -/
def isWordTok (t : List Char) : Bool := ! nonWordTok t

/-- Invariant of the bag-of-words indexing loop after processing the token
prefix pre: the inverse vocabulary lists the distinct word tokens of the
prefix in first-occurrence order, positions is parallel to it, feature k
holds exactly the token indices of the occurrences of word k, and the memo
set holds only separator tokens. -/
def BowInv (st : BowState) (pre : List (List Char)) : Prop :=
  st.inverse_vocab = firstDedup (pre.filter isWordTok)
  ∧ st.positions.length = st.inverse_vocab.length
  ∧ (∀ k, k < st.inverse_vocab.length →
      st.positions.getD k [] =
        ((enumF 0 pre).filter (fun p => p.2 == st.inverse_vocab.getD k [])).map Prod.fst)
  ∧ (∀ x ∈ st.non_vocab, nonWordTok x = true)

/-- Invariant of the positional indexing loop after processing the token
prefix pre: the inverse vocabulary lists the word-token occurrences in
order and positions lists their token indices in the same order. -/
def PosInv (st : PosState) (pre : List (List Char)) : Prop :=
  st.inverse_vocab = ((enumF 0 pre).filter (fun p => isWordTok p.2)).map Prod.snd
  ∧ st.positions = ((enumF 0 pre).filter (fun p => isWordTok p.2)).map Prod.fst
  ∧ (∀ x ∈ st.non_vocab, nonWordTok x = true)

/-- Models np.random.randint(low, high, size) with an injected stream of
random draws: fails (numpy ValueError) when low is not below high or when
the requested size is negative, otherwise returns size values in the
half-open range from low to high. -/
def npRandint (low high : Nat) (n : Int) (rv : Nat → Nat) : Option (List Nat) :=
  if low < high ∧ 0 ≤ n then
    some ((List.range n.toNat).map (fun t => low + rv t % (high - low)))
  else none

/-- Models np.random.choice(range(num_feat), size, replace=False) with an
injected draw: numpy fails when more elements are requested than the
population holds.  The injected draw stands for the chosen feature ids. -/
def npChoice (K size : Nat) (drawn : List Nat) : Option (List Nat) :=
  if size ≤ K then some drawn else none

/-- One perturbed row of the binary design matrix: entry j is zero exactly
when feature j was deactivated, modelling data[i, inactive] = 0 on a row
of ones. -/
def maskRow (K : Nat) (inactive : List Nat) : List ℚ :=
  (List.range K).map (fun j => if j ∈ inactive then (0 : ℚ) else 1)

/-- Models the sampling part of LimeTextExplainer.__data_labels_distances
(lines up to the classifier call): draw a removal size for each of the
num_samples - 1 perturbed rows, choose that many feature ids to
deactivate, build the binary design matrix (row 0 all ones) and the list
of reconstructed texts (entry 0 the raw string).  The randomness is
injected through rv (randint stream) and ch (choice per row index and
size); any raised error propagates as none. -/
def neighborhoodData (d : IndexedString) (num_samples : Nat)
    (rv : Nat → Nat) (ch : Nat → Nat → List Nat) :
    Option (List (List ℚ) × List (List Char)) :=
  let doc_size := d.num_words
  match npRandint 1 doc_size ((num_samples : Int) - 1) rv with
  | none => none
  | some sample =>
    match optMap (fun p =>
        match npChoice doc_size p.2 (ch p.1 p.2) with
        | none => none
        | some inactive =>
          match d.inverse_removing (inactive.map Int.ofNat) with
          | none => none
          | some txt => some (maskRow doc_size inactive, txt)) (enumF 1 sample) with
    | none => none
    | some rows =>
      some (List.replicate doc_size (1 : ℚ) :: rows.map Prod.fst,
            d.raw :: rows.map Prod.snd)

/-- Dot product of two rational vectors. -/
def dotQ (u v : List ℚ) : ℚ := (List.zipWith (· * ·) u v).sum

/-- Exact-arithmetic model of one entry of
sklearn.metrics.pairwise.cosine_distances: one minus the cosine
similarity, clipped to the interval from 0 to 2 as sklearn does.  A zero
vector has similarity 0 (division by zero yields 0, matching the
zero-norm handling of sklearn normalization). -/
noncomputable def cosineDistance (u v : List ℚ) : ℝ :=
  max 0 (min 2 (1 - ((dotQ u v : ℚ) : ℝ) /
    (Real.sqrt ((dotQ u u : ℚ) : ℝ) * Real.sqrt ((dotQ v v : ℚ) : ℝ))))

/-- Models the distance_fn of __data_labels_distances: cosine distances of
every row of the design matrix to row 0, scaled by 100. -/
noncomputable def distanceRow (data : List (List ℚ)) : List ℝ :=
  data.map (fun row => cosineDistance (data.headD []) row * 100)

/-- Models LimeTextExplainer.__data_labels_distances: generate the
neighborhood, call the classifier once on the batch of reconstructed
texts, and compute the scaled cosine distances.  The Python function
returns (data, labels, distances); the list of reconstructed texts that
is handed to the classifier is also exposed here, as the second
component, so that properties about it can be stated. -/
noncomputable def dataLabelsDistances (d : IndexedString)
    (classifier_fn : List (List Char) → List (List ℚ)) (num_samples : Nat)
    (rv : Nat → Nat) (ch : Nat → Nat → List Nat) :
    Option (List (List ℚ) × List (List Char) × List (List ℚ) × List ℝ) :=
  (neighborhoodData d num_samples rv ch).map (fun p =>
    (p.1, p.2, classifier_fn p.2, distanceRow p.1))

/-- Models np.argsort on a probability vector: the list of indices sorted
by ascending value.  numpy leaves the relative order of tied entries
unspecified; this model fixes the stable order. -/
def argsort (v : List ℚ) : List Nat :=
  List.insertionSort (fun i j => v.getD i 0 ≤ v.getD j 0) (List.range v.length)

/-- Models the label-selection fragment of explain_instance (the
top_labels branch): when top_labels is a positive count K, the labels
argument is replaced by the last K entries of the argsort of row 0 of the
prediction matrix, and the recorded top-label list is that slice
reversed; otherwise the given labels are used and nothing is recorded.
Returns (labels explained in the loop, recorded top-label list). -/
def explainSelect (labels : List Nat) (top_labels : Option Nat) (probs : List ℚ) :
    List Nat × Option (List Nat) :=
  match top_labels with
  | none => (labels, none)
  | some K =>
    if K = 0 then (labels, none)
    else
      let sel := (argsort probs).drop ((argsort probs).length - K)
      (sel, some sel.reverse)

/-- Concrete two-feature bag-of-words document used to exercise the
sampler. -/
def docGM : IndexedString := mkIndexedString ("good movie".toList) true

/-- Concrete classifier that always returns a single row, violating the
one-row-per-text contract on batches of more than one text. -/
def cfnOneRow : List (List Char) → List (List ℚ) := fun _ => [[1]]

/-- Concrete well-behaved classifier returning one row per text. -/
def cfnPerText : List (List Char) → List (List ℚ) :=
  fun texts => texts.map (fun _ => [1])

/-- Concrete randint stream that always draws 0. -/
def rvZero : Nat → Nat := fun _ => 0

/-- Concrete choice draw that always deactivates feature 0. -/
def chFirst : Nat → Nat → List Nat := fun _ _ => [0]

lemma flatten_addToRuns (c : Char) (rs : List (List Char)) :
    (addToRuns c rs).flatten = c :: rs.flatten := by
  unfold addToRuns
  match rs with
  | [] => simp
  | r :: rest =>
    match r with
    | [] => simp
    | d :: r' =>
      by_cases h : isW c == isW d <;> simp [h]

lemma flatten_runs (s : List Char) : (runs s).flatten = s := by
  induction s with
  | nil => rfl
  | cons c cs ih =>
    show (addToRuns c (runs cs)).flatten = c :: cs
    rw [flatten_addToRuns, ih]

lemma flatten_pySplit (s : List Char) : (pySplit s).flatten = s := by
  unfold pySplit
  have hend : ∀ rs1 : List (List Char),
      (match rs1.getLast? with
        | some r => if nonWordTok r then rs1 ++ [[]] else rs1
        | none => rs1).flatten = rs1.flatten := by
    intro rs1
    match h : rs1.getLast? with
    | some r =>
      by_cases hr : nonWordTok r <;> simp [hr]
    | none => simp
  match hrs : runs s with
  | [] =>
    have : s = [] := by
      have := flatten_runs s
      rw [hrs] at this
      simpa using this.symm
    subst this
    rfl
  | r :: rest =>
    have hjoin : (r :: rest).flatten = s := by rw [← hrs]; exact flatten_runs s
    by_cases hr : nonWordTok r <;> simp only [hr, if_true, if_false] <;>
      rw [hend] <;> simpa using hjoin

@[simp] lemma enumF_nil (n : Nat) : enumF n ([] : List α) = [] := rfl

@[simp] lemma enumF_cons (n : Nat) (x : α) (xs : List α) :
    enumF n (x :: xs) = (n, x) :: enumF (n + 1) xs := rfl

lemma enumF_append (l1 l2 : List α) (n : Nat) :
    enumF n (l1 ++ l2) = enumF n l1 ++ enumF (n + l1.length) l2 := by
  induction l1 generalizing n with
  | nil => simp
  | cons x xs ih =>
    simp [ih, Nat.add_assoc, Nat.add_comm 1 xs.length]

lemma enumF_map_snd (l : List α) (n : Nat) :
    (enumF n l).map Prod.snd = l := by
  induction l generalizing n with
  | nil => rfl
  | cons x xs ih => simp [ih]

lemma mem_enumF {l : List α} {n : Nat} {p : Nat × α} (hp : p ∈ enumF n l) :
    n ≤ p.1 ∧ p.1 < n + l.length ∧ l.get? (p.1 - n) = some p.2 := by
  induction l generalizing n with
  | nil => simp at hp
  | cons x xs ih =>
    rw [enumF_cons, List.mem_cons] at hp
    rcases hp with rfl | hp
    · simp
    · obtain ⟨h1, h2, h3⟩ := ih hp
      refine ⟨by omega, by simp only [List.length_cons]; omega, ?_⟩
      have hge : p.1 - n = (p.1 - (n + 1)) + 1 := by omega
      rw [hge, List.get?_cons_succ]
      exact h3

lemma enumF_fst_inj {l : List α} {n : Nat} {p q : Nat × α}
    (hp : p ∈ enumF n l) (hq : q ∈ enumF n l) (h : p.1 = q.1) : p = q := by
  obtain ⟨_, _, h3⟩ := mem_enumF hp
  obtain ⟨_, _, h6⟩ := mem_enumF hq
  rw [h] at h3
  rw [h6] at h3
  exact Prod.ext h (by simpa using h3.symm)

lemma enumF_pairwise_fst (l : List α) (n : Nat) :
    (enumF n l).Pairwise (fun p q => p.1 < q.1) := by
  induction l generalizing n with
  | nil => simp
  | cons x xs ih =>
    refine List.Pairwise.cons ?_ (ih (n + 1))
    intro q hq
    have := (mem_enumF hq).1
    omega

lemma enumF_filter_snd_map_snd (l : List α) (pred : α → Bool) (n : Nat) :
    ((enumF n l).filter (fun p => pred p.2)).map Prod.snd = l.filter pred := by
  induction l generalizing n with
  | nil => rfl
  | cons x xs ih =>
    by_cases h : pred x <;> simp [h, List.filter_cons, ih]

lemma pyGet_eq_none {l : List α} {i : Int}
    (h : (l.length : Int) ≤ i ∨ i < -(l.length : Int)) : pyGet l i = none := by
  rcases h with h | h
  · have h0 : 0 ≤ i := le_trans (by positivity) h
    rw [pyGet, if_pos h0, List.get?_eq_none]
    omega
  · have h0 : ¬ (0 ≤ i) := by omega
    rw [pyGet, if_neg h0, if_neg]
    omega

lemma pyGet_ofNat {l : List α} {k : Nat} :
    pyGet l (k : Int) = l.get? k := by
  simp [pyGet]

@[simp] lemma optMap_nil (f : α → Option β) : optMap f [] = some [] := rfl

lemma optMap_eq_none_iff (f : α → Option β) (l : List α) :
    optMap f l = none ↔ ∃ x ∈ l, f x = none := by
  induction l with
  | nil => simp
  | cons x xs ih =>
    cases hx : f x with
    | none => simp [optMap, hx]
    | some y =>
      cases hxs : optMap f xs with
      | none =>
        simp only [optMap, hx, hxs]
        constructor
        · intro _
          obtain ⟨z, hz, hz2⟩ := ih.1 hxs
          exact ⟨z, List.mem_cons_of_mem _ hz, hz2⟩
        · intro _; trivial
      | some ys =>
        simp only [optMap, hx, hxs]
        constructor
        · intro h; exact absurd h (by simp)
        · rintro ⟨z, hz, hz2⟩
          rcases List.mem_cons.1 hz with rfl | hz
          · rw [hx] at hz2; cases hz2
          · have : optMap f xs = none := ih.2 ⟨z, hz, hz2⟩
            rw [hxs] at this; cases this

lemma optMap_mem {f : α → Option β} {l : List α} {ys : List β}
    (h : optMap f l = some ys) (b : β) :
    b ∈ ys ↔ ∃ x ∈ l, f x = some b := by
  induction l generalizing ys with
  | nil => simp [optMap] at h; subst h; simp
  | cons x xs ih =>
    cases hx : f x with
    | none => simp [optMap, hx] at h
    | some y =>
      cases hxs : optMap f xs with
      | none => simp [optMap, hx, hxs] at h
      | some zs =>
        simp only [optMap, hx, hxs] at h
        cases h
        constructor
        · intro hb
          rcases List.mem_cons.1 hb with rfl | hb
          · exact ⟨x, List.mem_cons_self x xs, hx⟩
          · obtain ⟨z, hz, hz2⟩ := (ih hxs).1 hb
            exact ⟨z, List.mem_cons_of_mem _ hz, hz2⟩
        · rintro ⟨z, hz, hz2⟩
          rcases List.mem_cons.1 hz with rfl | hz
          · rw [hx] at hz2; cases hz2; exact List.mem_cons_self _ _
          · exact List.mem_cons_of_mem _ ((ih hxs).2 ⟨z, hz, hz2⟩)

lemma firstDedup_append_singleton [DecidableEq α] (l : List α) (x : α) :
    firstDedup (l ++ [x]) =
      if x ∈ firstDedup l then firstDedup l else firstDedup l ++ [x] := by
  unfold firstDedup
  rw [List.foldl_append]
  rfl

lemma mem_firstDedup_aux [DecidableEq α] (l : List α) :
    ∀ (acc : List α) (y : α),
      (y ∈ l.foldl (fun acc x => if x ∈ acc then acc else acc ++ [x]) acc) ↔
        (y ∈ acc ∨ y ∈ l) := by
  induction l with
  | nil => intro acc y; simp
  | cons x xs ih =>
    intro acc y
    rw [List.foldl_cons, ih]
    by_cases hx : x ∈ acc
    · simp only [if_pos hx, List.mem_cons]
      constructor
      · rintro (h | h)
        · exact Or.inl h
        · exact Or.inr (Or.inr h)
      · rintro (h | rfl | h)
        · exact Or.inl h
        · exact Or.inl hx
        · exact Or.inr h
    · simp only [if_neg hx, List.mem_append, List.mem_singleton, List.mem_cons]
      tauto

lemma mem_firstDedup [DecidableEq α] {l : List α} {y : α} :
    y ∈ firstDedup l ↔ y ∈ l := by
  unfold firstDedup; rw [mem_firstDedup_aux]; simp

lemma nodup_firstDedup_aux [DecidableEq α] (l : List α) :
    ∀ acc : List α, acc.Nodup →
      (l.foldl (fun acc x => if x ∈ acc then acc else acc ++ [x]) acc).Nodup := by
  induction l with
  | nil => intro acc h; simpa using h
  | cons x xs ih =>
    intro acc h
    rw [List.foldl_cons]
    apply ih
    by_cases hx : x ∈ acc
    · simpa [hx] using h
    · rw [if_neg hx, List.nodup_append]
      refine ⟨h, List.nodup_singleton x, ?_⟩
      intro a ha hax
      rw [List.mem_singleton] at hax
      exact hx (hax ▸ ha)

lemma nodup_firstDedup [DecidableEq α] (l : List α) : (firstDedup l).Nodup :=
  nodup_firstDedup_aux l [] List.nodup_nil

lemma vocabIdx_lt_length [DecidableEq α] {w : α} {l : List α} (h : w ∈ l) :
    vocabIdx w l < l.length := by
  induction l with
  | nil => simp at h
  | cons x xs ih =>
    by_cases hx : x = w
    · simp [vocabIdx, hx]
    · rcases List.mem_cons.1 h with rfl | h2
      · exact absurd rfl hx
      · simp only [vocabIdx, if_neg hx, List.length_cons]
        exact Nat.succ_lt_succ (ih h2)

lemma getD_vocabIdx [DecidableEq α] {w : α} {l : List α} (h : w ∈ l) (d : α) :
    l.getD (vocabIdx w l) d = w := by
  induction l with
  | nil => simp at h
  | cons x xs ih =>
    by_cases hx : x = w
    · simp [vocabIdx, hx]
    · rcases List.mem_cons.1 h with rfl | h2
      · exact absurd rfl hx
      · simp only [vocabIdx, if_neg hx]
        exact ih h2

lemma vocabIdx_append_self [DecidableEq α] {l : List α} {x : α} (h : x ∉ l) :
    vocabIdx x (l ++ [x]) = l.length := by
  induction l with
  | nil => simp [vocabIdx]
  | cons a as ih =>
    have hax : a ≠ x := fun e => h (e ▸ List.mem_cons_self a as)
    have h2 : x ∉ as := fun e => h (List.mem_cons_of_mem _ e)
    simp only [List.cons_append, List.length_cons, vocabIdx, if_neg hax]
    rw [List.append_eq, ih h2]

lemma getD_set_self {α : Type _} {l : List α} {i : Nat} (h : i < l.length) (v d : α) :
    (l.set i v).getD i d = v := by
  rw [List.getD_eq_getElem _ _ (by simpa using h), List.getElem_set_self]

lemma getD_set_ne {α : Type _} {l : List α} {i j : Nat} (hij : i ≠ j) (v d : α) :
    (l.set i v).getD j d = l.getD j d := by
  rw [List.getD_eq_getElem?_getD, List.getElem?_set_ne hij, ← List.getD_eq_getElem?_getD]

lemma getD_append_left {α : Type _} {l1 l2 : List α} {k : Nat} (h : k < l1.length) (d : α) :
    (l1 ++ l2).getD k d = l1.getD k d := by
  rw [List.getD_eq_getElem?_getD, List.getElem?_append_left h, ← List.getD_eq_getElem?_getD]

lemma getD_append_self {α : Type _} {l1 : List α} {x : α} (d : α) :
    (l1 ++ [x]).getD l1.length d = x := by
  rw [List.getD_eq_getElem?_getD, List.getElem?_append_right (le_refl _)]
  simp

lemma getD_mem {α : Type _} {l : List α} {k : Nat} (h : k < l.length) (d : α) :
    l.getD k d ∈ l := by
  rw [List.getD_eq_getElem _ _ h]
  exact List.getElem_mem h

lemma nodup_getD_inj {α : Type _} {l : List α} (hnd : l.Nodup) {i j : Nat}
    (hi : i < l.length) (hj : j < l.length) (d : α)
    (h : l.getD i d = l.getD j d) : i = j := by
  rw [List.getD_eq_get _ _ hi, List.getD_eq_get _ _ hj] at h
  have := (hnd.get_inj_iff).1 h
  exact congrArg Fin.val this

lemma filter_snd_beq_singleton_eq {n : Nat} {w v : List Char} (h : w = v) :
    ([(n, w)].filter (fun p => p.2 == v)) = [(n, w)] := by
  subst h
  have hc : (((n, w) : Nat × List Char).2 == w) = true := by simp
  rw [List.filter_singleton, hc]
  rfl

lemma filter_snd_beq_singleton_ne {n : Nat} {w v : List Char} (h : w ≠ v) :
    ([(n, w)].filter (fun p => p.2 == v)) = [] := by
  have hc : (((n, w) : Nat × List Char).2 == v) = false := beq_false_of_ne h
  rw [List.filter_singleton, hc]
  rfl

lemma snd_mem_of_mem_enumF {l : List α} {n : Nat} {p : Nat × α}
    (hp : p ∈ enumF n l) : p.2 ∈ l := by
  have := mem_enumF hp
  exact List.get?_mem this.2.2

lemma bowStep_inv {st : BowState} {pre : List (List Char)}
    (h : BowInv st pre) (w : List Char) :
    BowInv (bowStep st pre.length w) (pre ++ [w]) := by
  obtain ⟨h1, h2, h3, h4⟩ := h
  have hwtIv : ∀ x ∈ st.inverse_vocab, isWordTok x = true := by
    intro x hx
    rw [h1] at hx
    exact (List.mem_filter.1 (mem_firstDedup.1 hx)).2
  have hNodup : st.inverse_vocab.Nodup := h1 ▸ nodup_firstDedup _
  have henum : enumF 0 (pre ++ [w]) = enumF 0 pre ++ [(pre.length, w)] := by
    rw [enumF_append]; simp
  by_cases hnv : w ∈ st.non_vocab
  · -- memoized separator: state unchanged
    have hw : nonWordTok w = true := h4 w hnv
    have hfilter : (pre ++ [w]).filter isWordTok = pre.filter isWordTok := by
      rw [List.filter_append]
      simp [isWordTok, hw]
    refine ⟨by rw [bowStep, if_pos hnv, h1, hfilter], by rw [bowStep, if_pos hnv]; exact h2, ?_, ?_⟩
    · intro k hk
      rw [bowStep, if_pos hnv] at *
      rw [h3 k hk, henum, List.filter_append]
      have : ([(pre.length, w)].filter
          (fun p => p.2 == st.inverse_vocab.getD k [])) = [] := by
        have hne : w ≠ st.inverse_vocab.getD k [] := by
          intro e
          have := hwtIv _ (getD_mem hk [])
          rw [← e] at this
          simp [isWordTok, hw] at this
        exact filter_snd_beq_singleton_ne hne
      rw [this, List.append_nil]
    · rw [bowStep, if_pos hnv]; exact h4
  · by_cases hnw : nonWordTok w = true
    · -- new separator token: only the memo set changes
      have hfilter : (pre ++ [w]).filter isWordTok = pre.filter isWordTok := by
        rw [List.filter_append]
        simp [isWordTok, hnw]
      have hstep : bowStep st pre.length w = { st with non_vocab := w :: st.non_vocab } := by
        rw [bowStep, if_neg hnv, if_pos hnw]
      refine ⟨by rw [hstep, h1, hfilter], by rw [hstep]; exact h2, ?_, ?_⟩
      · intro k hk
        rw [hstep] at *
        rw [h3 k hk, henum, List.filter_append]
        have : ([(pre.length, w)].filter
            (fun p => p.2 == st.inverse_vocab.getD k [])) = [] := by
          have hne : w ≠ st.inverse_vocab.getD k [] := by
            intro e
            have := hwtIv _ (getD_mem hk [])
            rw [← e] at this
            rw [isWordTok, hnw] at this
            simp at this
          exact filter_snd_beq_singleton_ne hne
        rw [this, List.append_nil]
      · rw [hstep]
        intro x hx
        rcases List.mem_cons.1 hx with rfl | hx
        · exact hnw
        · exact h4 x hx
    · -- word token
      have hnw2 : nonWordTok w = false := by simpa using hnw
      have hwt : isWordTok w = true := by simp [isWordTok, hnw2]
      have hfilter : (pre ++ [w]).filter isWordTok = pre.filter isWordTok ++ [w] := by
        rw [List.filter_append]
        simp [hwt]
      by_cases hmem : w ∈ st.inverse_vocab
      · -- existing word: append the index to its occurrence list
        have hidx : vocabIdx w st.inverse_vocab < st.inverse_vocab.length :=
          vocabIdx_lt_length hmem
        have hstep : bowStep st pre.length w =
            { inverse_vocab := st.inverse_vocab
              positions := st.positions.set (vocabIdx w st.inverse_vocab)
                (st.positions.getD (vocabIdx w st.inverse_vocab) [] ++ [pre.length])
              non_vocab := st.non_vocab } := by
          rw [bowStep, if_neg hnv, if_neg hnw]
          simp only [if_pos hmem]
        have hiv : firstDedup ((pre ++ [w]).filter isWordTok) = st.inverse_vocab := by
          rw [hfilter, firstDedup_append_singleton, ← h1, if_pos hmem]
        refine ⟨by rw [hstep, hiv], by rw [hstep]; simpa using h2, ?_, by rw [hstep]; exact h4⟩
        intro k hk
        rw [hstep] at *
        simp only at *
        by_cases hkidx : k = vocabIdx w st.inverse_vocab
        · subst hkidx
          rw [getD_set_self (h2 ▸ hidx), h3 _ hidx, henum, List.filter_append]
          have hgetw : st.inverse_vocab.getD (vocabIdx w st.inverse_vocab) [] = w :=
            getD_vocabIdx hmem []
          rw [hgetw, filter_snd_beq_singleton_eq rfl, List.map_append]
          rfl
        · rw [getD_set_ne (fun e => hkidx e.symm), h3 k hk, henum, List.filter_append]
          have hne : ¬ (w = st.inverse_vocab.getD k []) := by
            intro e
            have hgetw : st.inverse_vocab.getD (vocabIdx w st.inverse_vocab) [] = w :=
              getD_vocabIdx hmem []
            exact hkidx (nodup_getD_inj hNodup hk hidx [] (by rw [hgetw, ← e]))
          rw [filter_snd_beq_singleton_ne hne, List.append_nil]
      · -- fresh word: extend vocabulary and positions
        have hidx : vocabIdx w (st.inverse_vocab ++ [w]) = st.inverse_vocab.length :=
          vocabIdx_append_self hmem
        have hstep : bowStep st pre.length w =
            { inverse_vocab := st.inverse_vocab ++ [w]
              positions := (st.positions ++ [[]]).set st.inverse_vocab.length
                ((st.positions ++ [[]]).getD st.inverse_vocab.length [] ++ [pre.length])
              non_vocab := st.non_vocab } := by
          rw [bowStep, if_neg hnv, if_neg hnw]
          simp only [if_neg hmem, hidx]
        have hgetnew : (st.positions ++ [[]]).getD st.inverse_vocab.length [] = [] := by
          rw [← h2, getD_append_self]
        have hWnotPre : ∀ p ∈ enumF 0 pre, (p.2 == w) = false := by
          intro p hp
          have hsnd : p.2 ∈ pre := snd_mem_of_mem_enumF hp
          by_cases he : p.2 = w
          · exfalso
            apply hmem
            rw [h1, mem_firstDedup, List.mem_filter]
            exact ⟨he ▸ hsnd, hwt⟩
          · exact beq_false_of_ne he
        refine ⟨?_, ?_, ?_, by rw [hstep]; exact h4⟩
        · rw [hstep, hfilter, firstDedup_append_singleton, ← h1, if_neg hmem]
        · rw [hstep]
          simp [h2]
        · intro k hk
          rw [hstep] at *
          simp only [List.length_append, List.length_singleton] at hk
          by_cases hkl : k = st.inverse_vocab.length
          · subst hkl
            rw [getD_set_self (by simp [h2]), hgetnew, List.nil_append]
            rw [getD_append_self, henum, List.filter_append]
            have hfilw : (enumF 0 pre).filter (fun p => p.2 == w) = [] :=
              List.filter_eq_nil.2 (fun p hp => by rw [hWnotPre p hp]; simp)
            rw [hfilw, List.nil_append, filter_snd_beq_singleton_eq rfl]
            rfl
          · have hklt : k < st.inverse_vocab.length := by omega
            rw [getD_set_ne (fun e => hkl e.symm), getD_append_left (h2 ▸ hklt),
              getD_append_left hklt, h3 k hklt, henum, List.filter_append]
            have hne : w ≠ st.inverse_vocab.getD k [] := by
              intro e
              exact hmem (e ▸ getD_mem hklt [])
            rw [filter_snd_beq_singleton_ne hne, List.append_nil]

lemma buildBow_inv (ws : List (List Char)) :
    ∀ (pre : List (List Char)) (st : BowState),
      BowInv st pre → BowInv (buildBow pre.length ws st) (pre ++ ws) := by
  induction ws with
  | nil => intro pre st h; simpa using h
  | cons w ws ih =>
    intro pre st h
    have hstep := bowStep_inv h w
    have := ih (pre ++ [w]) _ hstep
    rw [List.length_append, List.length_singleton] at this
    simpa [buildBow, List.append_assoc] using this

lemma bowInv_init : BowInv ⟨[], [], []⟩ [] := by
  refine ⟨rfl, rfl, ?_, ?_⟩
  · intro k hk; simp at hk
  · intro x hx; simp at hx

lemma mk_bow_inv (raw : List Char) :
    BowInv ⟨(mkIndexedString raw true).inverse_vocab,
            (mkIndexedString raw true).positions_bow, []⟩ (pySplit raw) := by
  have h := buildBow_inv (pySplit raw) [] ⟨[], [], []⟩ bowInv_init
  simp only [List.length_nil, List.nil_append] at h
  obtain ⟨h1, h2, h3, _⟩ := h
  exact ⟨h1, h2, h3, by intro x hx; simp at hx⟩

lemma filter_singleton_true {α : Type _} {x : α} {pr : α → Bool} (h : pr x = true) :
    [x].filter pr = [x] := by
  rw [List.filter_singleton, h]
  rfl

lemma filter_singleton_false {α : Type _} {x : α} {pr : α → Bool} (h : pr x = false) :
    [x].filter pr = [] := by
  rw [List.filter_singleton, h]
  rfl

lemma posStep_inv {st : PosState} {pre : List (List Char)}
    (h : PosInv st pre) (w : List Char) :
    PosInv (posStep st pre.length w) (pre ++ [w]) := by
  obtain ⟨h1, h2, h3⟩ := h
  have henum : enumF 0 (pre ++ [w]) = enumF 0 pre ++ [(pre.length, w)] := by
    rw [enumF_append]; simp
  by_cases hnv : w ∈ st.non_vocab
  · have hw : nonWordTok w = true := h3 w hnv
    have hfil : ([((pre.length, w) : Nat × List Char)].filter (fun p => isWordTok p.2)) = [] :=
      filter_singleton_false (by simp [isWordTok, hw])
    rw [posStep, if_pos hnv]
    exact ⟨by rw [h1, henum, List.filter_append, hfil, List.append_nil],
           by rw [h2, henum, List.filter_append, hfil, List.append_nil], h3⟩
  · by_cases hnw : nonWordTok w = true
    · have hfil : ([((pre.length, w) : Nat × List Char)].filter (fun p => isWordTok p.2)) = [] :=
        filter_singleton_false (by simp [isWordTok, hnw])
      rw [posStep, if_neg hnv, if_pos hnw]
      refine ⟨by rw [h1, henum, List.filter_append, hfil, List.append_nil],
              by rw [h2, henum, List.filter_append, hfil, List.append_nil], ?_⟩
      intro x hx
      rcases List.mem_cons.1 hx with rfl | hx
      · exact hnw
      · exact h3 x hx
    · have hnw2 : nonWordTok w = false := by simpa using hnw
      have hfil : ([((pre.length, w) : Nat × List Char)].filter (fun p => isWordTok p.2)) =
          [(pre.length, w)] :=
        filter_singleton_true (by simp [isWordTok, hnw2])
      rw [posStep, if_neg hnv, if_neg hnw]
      exact ⟨by rw [h1, henum, List.filter_append, hfil]; simp,
             by rw [h2, henum, List.filter_append, hfil]; simp, h3⟩

lemma buildPos_inv (ws : List (List Char)) :
    ∀ (pre : List (List Char)) (st : PosState),
      PosInv st pre → PosInv (buildPos pre.length ws st) (pre ++ ws) := by
  induction ws with
  | nil => intro pre st h; simpa using h
  | cons w ws ih =>
    intro pre st h
    have hstep := posStep_inv h w
    have := ih (pre ++ [w]) _ hstep
    rw [List.length_append, List.length_singleton] at this
    simpa [buildPos, List.append_assoc] using this

lemma mk_pos_inv (raw : List Char) :
    (mkIndexedString raw false).inverse_vocab =
      ((enumF 0 (pySplit raw)).filter (fun p => isWordTok p.2)).map Prod.snd
    ∧ (mkIndexedString raw false).positions_pos =
      ((enumF 0 (pySplit raw)).filter (fun p => isWordTok p.2)).map Prod.fst := by
  have h := buildPos_inv (pySplit raw) [] ⟨[], [], []⟩
    ⟨rfl, rfl, by intro x hx; simp at hx⟩
  simp only [List.length_nil, List.nil_append] at h
  exact ⟨h.1, h.2.1⟩

lemma mk_raw (raw : List Char) (b : Bool) : (mkIndexedString raw b).raw = raw := by
  cases b <;> rfl

lemma mk_as_list (raw : List Char) (b : Bool) :
    (mkIndexedString raw b).as_list = pySplit raw := by
  cases b <;> rfl

lemma mk_bow_flag (raw : List Char) (b : Bool) : (mkIndexedString raw b).bow = b := by
  cases b <;> rfl

lemma pyGet_lt {l : List α} {k : Nat} (h : k < l.length) (d : α) :
    pyGet l (k : Int) = some (l.getD k d) := by
  rw [pyGet_ofNat, List.get?_eq_get h, List.getD_eq_get _ _ h]

lemma optMap_singleton (f : α → Option β) (x : α) :
    optMap f [x] = (f x).map (fun y => [y]) := by
  cases h : f x <;> simp [optMap, h]

lemma inverse_removing_nil (d : IndexedString) :
    d.inverse_removing [] = some d.as_list.flatten := by
  rw [IndexedString.inverse_removing, IndexedString.getIdxs]
  have hfil : (enumF 0 d.as_list).filter (fun p => ! (([] : List Nat).contains p.1)) =
      enumF 0 d.as_list :=
    List.filter_eq_self.2 (fun p _ => by simp [List.contains])
  by_cases hb : d.bow
  · rw [if_pos hb]
    simp only [optMap_nil, Option.map_some', List.flatten_nil, hfil, enumF_map_snd]
  · rw [if_neg hb]
    simp only [optMap_nil, Option.map_some', hfil, enumF_map_snd]

lemma length_firstDedup_eq_card [DecidableEq α] (l : List α) :
    (firstDedup l).length = l.toFinset.card := by
  have hnd := nodup_firstDedup l
  have hset : (firstDedup l).toFinset = l.toFinset :=
    Finset.ext fun x => by simp [List.mem_toFinset, mem_firstDedup]
  rw [← List.toFinset_card_of_nodup hnd, hset]

lemma mk_bow_iv (raw : List Char) :
    (mkIndexedString raw true).inverse_vocab =
      firstDedup ((pySplit raw).filter isWordTok) :=
  (mk_bow_inv raw).1

lemma mk_bow_positions_getD (raw : List Char) (k : Nat)
    (hk : k < (mkIndexedString raw true).inverse_vocab.length) :
    (mkIndexedString raw true).positions_bow.getD k [] =
      ((enumF 0 (pySplit raw)).filter
        (fun p => p.2 == (mkIndexedString raw true).inverse_vocab.getD k [])).map Prod.fst :=
  (mk_bow_inv raw).2.2.1 k hk

lemma mk_bow_positions_length (raw : List Char) :
    (mkIndexedString raw true).positions_bow.length =
      (mkIndexedString raw true).inverse_vocab.length :=
  (mk_bow_inv raw).2.1

lemma mk_pos_positions_length (raw : List Char) :
    (mkIndexedString raw false).positions_pos.length =
      (mkIndexedString raw false).inverse_vocab.length := by
  obtain ⟨h1, h2⟩ := mk_pos_inv raw
  rw [h1, h2, List.length_map, List.length_map]

lemma contains_eq_of_mem_iff {α : Type _} [BEq α] [LawfulBEq α] {l1 l2 : List α}
    (h : ∀ i, i ∈ l1 ↔ i ∈ l2) (a : α) : l1.contains a = l2.contains a := by
  have t1 : l1.contains a = true ↔ a ∈ l1 := List.elem_iff
  have t2 : l2.contains a = true ↔ a ∈ l2 := List.elem_iff
  by_cases ha : a ∈ l1
  · rw [t1.2 ha, t2.2 ((h a).1 ha)]
  · have ha2 : a ∉ l2 := fun hx => ha ((h a).2 hx)
    cases hc1 : l1.contains a with
    | false =>
      cases hc2 : l2.contains a with
      | false => rfl
      | true => exact absurd (t2.1 hc2) ha2
    | true => exact absurd (t1.1 hc1) ha

/-- C1: for every document, remove with an empty feature id list returns the
original raw string unchanged. -/
theorem remove_empty_round_trip (raw : List Char) (b : Bool) :
    (mkIndexedString raw b).inverse_removing [] =
      some ((mkIndexedString raw b).raw_string) := by
  rw [inverse_removing_nil, mk_as_list, flatten_pySplit, IndexedString.raw_string, mk_raw]

/-- C2: num_words counts distinct word tokens in bag-of-words mode and word
token occurrences in positional mode; separator tokens are never features;
on the raw text good movie good it is 2 in bag-of-words mode and 3 in
positional mode. -/
theorem num_words_spec :
    (∀ raw : List Char, (mkIndexedString raw true).num_words =
        ((pySplit raw).filter isWordTok).toFinset.card)
    ∧ (∀ raw : List Char, (mkIndexedString raw false).num_words =
        ((pySplit raw).filter isWordTok).length)
    ∧ (∀ (raw : List Char) (b : Bool),
        (mkIndexedString raw b).inverse_vocab.all (fun w => ! nonWordTok w) = true)
    ∧ (mkIndexedString ("good movie good".toList) true).num_words = 2
    ∧ (mkIndexedString ("good movie good".toList) false).num_words = 3 := by
  refine ⟨?_, ?_, ?_, by decide, by decide⟩
  · intro raw
    rw [IndexedString.num_words, mk_bow_iv, length_firstDedup_eq_card]
  · intro raw
    rw [IndexedString.num_words, (mk_pos_inv raw).1, List.length_map, ←
      enumF_filter_snd_map_snd (pySplit raw) isWordTok 0, List.length_map]
  · intro raw b
    rw [List.all_eq_true]
    intro w hw
    cases b with
    | true =>
      rw [mk_bow_iv, mem_firstDedup, List.mem_filter] at hw
      simpa [isWordTok] using hw.2
    | false =>
      have h1 := (mk_pos_inv raw).1
      rw [h1, List.mem_map] at hw
      obtain ⟨p, hp, rfl⟩ := hw
      have := (List.mem_filter.1 hp).2
      simpa [isWordTok] using this

/-- C3: in bag-of-words mode, removing the single feature id of a word
removes every occurrence of that word at once: the reconstruction equals
the concatenation of all tokens different from that word. -/
theorem bow_remove_removes_all_occurrences (raw : List Char) (id : Nat)
    (h1 : id < (mkIndexedString raw true).num_words)
    (h2 : 1 < (mkIndexedString raw true).as_list.count
        ((mkIndexedString raw true).inverse_vocab.getD id [])) :
    (mkIndexedString raw true).inverse_removing [(id : Int)] =
      some (((mkIndexedString raw true).as_list.filter
        (fun t => ! (t == (mkIndexedString raw true).inverse_vocab.getD id []))).flatten) := by
  clear h2
  set d := mkIndexedString raw true with hd
  set w := d.inverse_vocab.getD id [] with hw
  have hidlen : id < d.positions_bow.length := by
    rw [mk_bow_positions_length]; exact h1
  have hget : pyGet d.positions_bow (id : Int) = some (d.positions_bow.getD id []) :=
    pyGet_lt hidlen []
  set idxs := d.positions_bow.getD id [] with hidxs
  have hidxval : idxs = ((enumF 0 (pySplit raw)).filter
      (fun p => p.2 == w)).map Prod.fst := mk_bow_positions_getD raw id h1
  have hasl : d.as_list = pySplit raw := mk_as_list raw true
  have hbow : d.bow = true := mk_bow_flag raw true
  rw [IndexedString.inverse_removing, IndexedString.getIdxs, if_pos hbow,
    optMap_singleton, hget]
  simp only [Option.map_some', List.flatten_cons, List.flatten_nil, List.append_nil]
  congr 1
  have hcongr : (enumF 0 d.as_list).filter (fun p => ! idxs.contains p.1) =
      (enumF 0 d.as_list).filter (fun p => ! (p.2 == w)) := by
    apply List.filter_congr
    intro p hp
    have hiff : idxs.contains p.1 = true ↔ (p.2 == w) = true := by
      constructor
      · intro hc
        have hmem : p.1 ∈ idxs := List.elem_iff.1 hc
        rw [hidxval, List.mem_map] at hmem
        obtain ⟨q, hq, hq1⟩ := hmem
        have hqe := List.mem_filter.1 hq
        have : q = p := enumF_fst_inj hqe.1 (by rw [← hasl]; exact hp) hq1
        rw [← this]
        exact hqe.2
      · intro hbeq
        apply List.elem_iff.2
        rw [hidxval, List.mem_map]
        exact ⟨p, List.mem_filter.2 ⟨by rw [← hasl]; exact hp, hbeq⟩, rfl⟩
    have : idxs.contains p.1 = (p.2 == w) := by
      cases hc1 : idxs.contains p.1 with
      | true => exact (hiff.1 hc1).symm
      | false =>
        cases hc2 : (p.2 == w) with
        | true => rw [← hc1, hiff.2 hc2]
        | false => rfl
    rw [this]
  rw [hcongr, hasl]
  exact congrArg List.flatten (enumF_filter_snd_map_snd (pySplit raw) (fun t => ! (t == w)) 0)

lemma contains_singleton {α : Type _} [BEq α] (x a : α) :
    ([x] : List α).contains a = (a == x) := by
  cases h : a == x <;> simp [List.contains, List.elem, h]

/-- C4: in positional mode, occurrences of the same word have distinct
feature ids (the position array is injective and covers every word-token
occurrence), and removing one id masks only its own token position, so the
other occurrence stays in the reconstruction. -/
theorem positional_distinct_ids_remove_one (raw : List Char) (id jd : Nat)
    (h1 : id < (mkIndexedString raw false).num_words)
    (h2 : jd < (mkIndexedString raw false).num_words)
    (hne : id ≠ jd)
    (hsame : (mkIndexedString raw false).inverse_vocab.getD id [] =
          (mkIndexedString raw false).inverse_vocab.getD jd []) :
    (mkIndexedString raw false).positions_pos.getD id 0 ≠
      (mkIndexedString raw false).positions_pos.getD jd 0
    ∧ (∀ p ∈ enumF 0 (mkIndexedString raw false).as_list,
        isWordTok p.2 = true → p.1 ∈ (mkIndexedString raw false).positions_pos)
    ∧ (mkIndexedString raw false).inverse_removing [(id : Int)] =
        some ((((enumF 0 (mkIndexedString raw false).as_list).filter
          (fun p => ! (p.1 == (mkIndexedString raw false).positions_pos.getD id 0))).map
            Prod.snd).flatten)
    ∧ ((mkIndexedString raw false).positions_pos.getD jd 0,
       (mkIndexedString raw false).inverse_vocab.getD jd []) ∈
        (enumF 0 (mkIndexedString raw false).as_list).filter
          (fun p => ! (p.1 == (mkIndexedString raw false).positions_pos.getD id 0)) := by
  clear hsame
  set d := mkIndexedString raw false with hd
  obtain ⟨hiv, hpp⟩ := mk_pos_inv raw
  set ef := (enumF 0 (pySplit raw)).filter (fun p => isWordTok p.2) with hef
  have hleniv : d.inverse_vocab.length = ef.length := by rw [hiv, List.length_map]
  have hlenpp : d.positions_pos.length = ef.length := by rw [hpp, List.length_map]
  have hidef : id < ef.length := by rw [← hleniv]; exact h1
  have hjdef : jd < ef.length := by rw [← hleniv]; exact h2
  have hppget : ∀ (k : Nat) (hk : k < ef.length),
      d.positions_pos.getD k 0 = (ef.get ⟨k, hk⟩).1 := by
    intro k hk
    rw [hpp, List.getD_eq_getElem _ _ (by rw [List.length_map]; exact hk),
      List.getElem_map]
    rfl
  have hivget : ∀ (k : Nat) (hk : k < ef.length),
      d.inverse_vocab.getD k [] = (ef.get ⟨k, hk⟩).2 := by
    intro k hk
    rw [hiv, List.getD_eq_getElem _ _ (by rw [List.length_map]; exact hk),
      List.getElem_map]
    rfl
  have hpw : ef.Pairwise (fun p q => p.1 < q.1) :=
    List.Pairwise.filter _ (enumF_pairwise_fst (pySplit raw) 0)
  have hdistinct : d.positions_pos.getD id 0 ≠ d.positions_pos.getD jd 0 := by
    rw [hppget id hidef, hppget jd hjdef]
    rcases lt_or_gt_of_ne hne with hlt | hlt
    · exact ne_of_lt (List.pairwise_iff_get.1 hpw ⟨id, hidef⟩ ⟨jd, hjdef⟩ hlt)
    · exact (ne_of_lt (List.pairwise_iff_get.1 hpw ⟨jd, hjdef⟩ ⟨id, hidef⟩ hlt)).symm
  have hasl : d.as_list = pySplit raw := mk_as_list raw false
  refine ⟨hdistinct, ?_, ?_, ?_⟩
  · intro p hp hword
    rw [hasl] at hp
    have hpe : p ∈ ef := List.mem_filter.2 ⟨hp, hword⟩
    rw [hpp]
    exact List.mem_map_of_mem Prod.fst hpe
  · have hbow : d.bow = false := mk_bow_flag raw false
    have hidpp : id < d.positions_pos.length := by rw [hlenpp]; exact hidef
    rw [IndexedString.inverse_removing, IndexedString.getIdxs,
      if_neg (by rw [hbow]; exact Bool.false_ne_true), optMap_singleton,
      pyGet_lt hidpp 0]
    simp only [Option.map_some']
    apply congrArg
    apply congrArg List.flatten
    apply congrArg (List.map Prod.snd)
    apply List.filter_congr
    intro p _
    apply congrArg (fun b => ! b)
    rw [contains_singleton]
  · apply List.mem_filter.2
    constructor
    · have hpair : (d.positions_pos.getD jd 0, d.inverse_vocab.getD jd []) =
          ef.get ⟨jd, hjdef⟩ := by
        rw [hppget jd hjdef, hivget jd hjdef]
      rw [hpair, hasl]
      exact List.Sublist.mem (List.get_mem ef jd hjdef) (List.filter_sublist _)
    · have : (d.positions_pos.getD jd 0 == d.positions_pos.getD id 0) = false :=
        beq_false_of_ne (Ne.symm hdistinct)
      rw [this]
      rfl

/-- C7 (amended): feature lookups, position lookups and removal fail for
every id at or above num_words and for every id below minus num_words;
negative ids inside the Python range resolve from the back instead of
failing. -/
theorem invalid_id_fails (raw : List Char) (b : Bool) (id : Int)
    (h : ((mkIndexedString raw b).num_words : Int) ≤ id ∨
         id < -((mkIndexedString raw b).num_words : Int)) :
    (mkIndexedString raw b).word id = none
    ∧ (mkIndexedString raw b).string_position id = none
    ∧ (mkIndexedString raw b).inverse_removing [id] = none := by
  have hword : (mkIndexedString raw b).word id = none := pyGet_eq_none h
  cases b with
  | true =>
    have hbow : (mkIndexedString raw true).bow = true := mk_bow_flag raw true
    have hnone : pyGet (mkIndexedString raw true).positions_bow id = none :=
      pyGet_eq_none (by rw [mk_bow_positions_length raw]; exact h)
    refine ⟨hword, ?_, ?_⟩
    · rw [IndexedString.string_position, if_pos hbow, hnone]
      rfl
    · rw [IndexedString.inverse_removing, IndexedString.getIdxs, if_pos hbow,
        optMap_singleton, hnone]
      rfl
  | false =>
    have hbow : (mkIndexedString raw false).bow = false := mk_bow_flag raw false
    have hnone : pyGet (mkIndexedString raw false).positions_pos id = none :=
      pyGet_eq_none (by rw [mk_pos_positions_length raw]; exact h)
    refine ⟨hword, ?_, ?_⟩
    · rw [IndexedString.string_position,
        if_neg (by rw [hbow]; exact Bool.false_ne_true), hnone]
      rfl
    · rw [IndexedString.inverse_removing, IndexedString.getIdxs,
        if_neg (by rw [hbow]; exact Bool.false_ne_true), optMap_singleton, hnone]
      rfl

/-- C10: removal is driven by a boolean mask over token positions resolved
through id membership only, so two id lists with the same members (any
order, any duplication) reconstruct the same string. -/
theorem remove_depends_only_on_id_set (d : IndexedString) (l1 l2 : List Int)
    (h : ∀ x : Int, x ∈ l1 ↔ x ∈ l2) :
    d.inverse_removing l1 = d.inverse_removing l2 := by
  rw [IndexedString.inverse_removing, IndexedString.inverse_removing,
    IndexedString.getIdxs, IndexedString.getIdxs]
  by_cases hb : d.bow
  · rw [if_pos hb, if_pos hb]
    cases hm1 : optMap (pyGet d.positions_bow) l1 with
    | none =>
      have hm2 : optMap (pyGet d.positions_bow) l2 = none := by
        rw [optMap_eq_none_iff] at hm1 ⊢
        obtain ⟨x, hx, hfx⟩ := hm1
        exact ⟨x, (h x).1 hx, hfx⟩
      rw [hm2]
    | some ys1 =>
      cases hm2 : optMap (pyGet d.positions_bow) l2 with
      | none =>
        exfalso
        rw [optMap_eq_none_iff] at hm2
        obtain ⟨x, hx, hfx⟩ := hm2
        have hcontra : optMap (pyGet d.positions_bow) l1 = none :=
          (optMap_eq_none_iff _ _).2 ⟨x, (h x).2 hx, hfx⟩
        rw [hm1] at hcontra
        cases hcontra
      | some ys2 =>
        have hmemiff : ∀ i : Nat, i ∈ ys1.flatten ↔ i ∈ ys2.flatten := by
          intro i
          rw [List.mem_flatten, List.mem_flatten]
          constructor
          · rintro ⟨zs, hzs, hi⟩
            obtain ⟨x, hx, hfx⟩ := (optMap_mem hm1 zs).1 hzs
            exact ⟨zs, (optMap_mem hm2 zs).2 ⟨x, (h x).1 hx, hfx⟩, hi⟩
          · rintro ⟨zs, hzs, hi⟩
            obtain ⟨x, hx, hfx⟩ := (optMap_mem hm2 zs).1 hzs
            exact ⟨zs, (optMap_mem hm1 zs).2 ⟨x, (h x).2 hx, hfx⟩, hi⟩
        simp only [Option.map_some']
        apply congrArg
        apply congrArg List.flatten
        apply congrArg (List.map Prod.snd)
        apply List.filter_congr
        intro p _
        exact congrArg (fun b => ! b) (contains_eq_of_mem_iff hmemiff p.1)
  · rw [if_neg hb, if_neg hb]
    cases hm1 : optMap (pyGet d.positions_pos) l1 with
    | none =>
      have hm2 : optMap (pyGet d.positions_pos) l2 = none := by
        rw [optMap_eq_none_iff] at hm1 ⊢
        obtain ⟨x, hx, hfx⟩ := hm1
        exact ⟨x, (h x).1 hx, hfx⟩
      rw [hm2]
    | some ys1 =>
      cases hm2 : optMap (pyGet d.positions_pos) l2 with
      | none =>
        exfalso
        rw [optMap_eq_none_iff] at hm2
        obtain ⟨x, hx, hfx⟩ := hm2
        have hcontra : optMap (pyGet d.positions_pos) l1 = none :=
          (optMap_eq_none_iff _ _).2 ⟨x, (h x).2 hx, hfx⟩
        rw [hm1] at hcontra
        cases hcontra
      | some ys2 =>
        have hmemiff : ∀ i : Nat, i ∈ ys1 ↔ i ∈ ys2 := by
          intro i
          rw [optMap_mem hm1, optMap_mem hm2]
          constructor
          · rintro ⟨x, hx, hfx⟩
            exact ⟨x, (h x).1 hx, hfx⟩
          · rintro ⟨x, hx, hfx⟩
            exact ⟨x, (h x).2 hx, hfx⟩
        simp only [Option.map_some']
        apply congrArg
        apply congrArg List.flatten
        apply congrArg (List.map Prod.snd)
        apply List.filter_congr
        intro p _
        exact congrArg (fun b => ! b) (contains_eq_of_mem_iff hmemiff p.1)

lemma dotQ_replicate_one (K : Nat) :
    dotQ (List.replicate K (1 : ℚ)) (List.replicate K 1) = (K : ℚ) := by
  rw [dotQ, List.zipWith_replicate]
  simp [List.sum_replicate]

lemma cosineDistance_self_ones {K : Nat} (hK : 1 ≤ K) :
    cosineDistance (List.replicate K (1 : ℚ)) (List.replicate K 1) = 0 := by
  rw [cosineDistance, dotQ_replicate_one]
  have hKpos : (0 : ℝ) < ((K : ℚ) : ℝ) := by
    have : (0 : ℚ) < (K : ℚ) := by exact_mod_cast hK
    exact_mod_cast this
  rw [Real.mul_self_sqrt (le_of_lt hKpos), div_self (ne_of_gt hKpos)]
  norm_num

/-- C6: a document with at most one feature makes neighborhood generation
fail (the removal-size draw over an empty range raises) instead of
producing any sample. -/
theorem empty_neighborhood_fails (d : IndexedString)
    (cfn : List (List Char) → List (List ℚ)) (num_samples : Nat)
    (rv : Nat → Nat) (ch : Nat → Nat → List Nat)
    (h : d.num_words ≤ 1) :
    dataLabelsDistances d cfn num_samples rv ch = none := by
  have hri : npRandint 1 d.num_words ((num_samples : Int) - 1) rv = none := by
    rw [npRandint, if_neg]
    rintro ⟨hc, -⟩
    omega
  rw [dataLabelsDistances, neighborhoodData]
  simp only [hri]
  rfl

/-- C5: whenever a neighborhood is generated (at least two features, at
least one sample), row 0 of the design matrix is all ones, the first
reconstructed text is the original raw string, and the first distance
entry is exactly 0. -/
theorem row_zero_unperturbed (d : IndexedString)
    (cfn : List (List Char) → List (List ℚ)) (num_samples : Nat)
    (rv : Nat → Nat) (ch : Nat → Nat → List Nat)
    (data : List (List ℚ)) (texts : List (List Char))
    (labels : List (List ℚ)) (dists : List ℝ)
    (h2 : 2 ≤ d.num_words) (h1 : 1 ≤ num_samples)
    (h : dataLabelsDistances d cfn num_samples rv ch = some (data, texts, labels, dists)) :
    data.head? = some (List.replicate d.num_words (1 : ℚ))
    ∧ texts.head? = some d.raw_string
    ∧ dists.head? = some 0 := by
  clear h1
  rw [dataLabelsDistances] at h
  rcases Option.map_eq_some'.1 h with ⟨p, hp, hfp⟩
  rw [neighborhoodData] at hp
  cases hs : npRandint 1 d.num_words ((num_samples : Int) - 1) rv with
  | none => simp only [hs] at hp; exact Option.noConfusion hp
  | some sample =>
    simp only [hs] at hp
    cases hrows : optMap (fun q =>
        match npChoice d.num_words q.2 (ch q.1 q.2) with
        | none => none
        | some inactive =>
          match d.inverse_removing (inactive.map Int.ofNat) with
          | none => none
          | some txt => some (maskRow d.num_words inactive, txt)) (enumF 1 sample) with
    | none => simp only [hrows] at hp; exact Option.noConfusion hp
    | some rows =>
      simp only [hrows, Option.some.injEq] at hp
      rw [← hp] at hfp
      simp only [Prod.mk.injEq] at hfp
      obtain ⟨hdata, htexts, hlabels, hdists⟩ := hfp
      refine ⟨?_, ?_, ?_⟩
      · rw [← hdata]; rfl
      · rw [← htexts]; rfl
      · rw [← hdists, distanceRow]
        simp only [List.map_cons, List.head?_cons, List.headD_cons]
        rw [cosineDistance_self_ones (le_trans (by norm_num) h2), zero_mul]

/-- C9 (amended): the classifier output is passed through without any
shape validation: generation succeeds or fails independently of the
classifier, and the returned label matrix is exactly the classifier
output on the reconstructed texts. -/
theorem prediction_shape_unvalidated (d : IndexedString)
    (cfn : List (List Char) → List (List ℚ)) (num_samples : Nat)
    (rv : Nat → Nat) (ch : Nat → Nat → List Nat) :
    (dataLabelsDistances d cfn num_samples rv ch).isSome =
      (neighborhoodData d num_samples rv ch).isSome
    ∧ (dataLabelsDistances d cfn num_samples rv ch).map (fun r => r.2.2.1) =
      (neighborhoodData d num_samples rv ch).map (fun p => cfn p.2) := by
  cases h : neighborhoodData d num_samples rv ch with
  | none => rw [dataLabelsDistances, h]; exact ⟨rfl, rfl⟩
  | some p => rw [dataLabelsDistances, h]; exact ⟨rfl, rfl⟩

/-- C8: with a positive top_labels count K bounded by the number of
classes, label selection ignores the explicitly passed labels, explains
exactly K distinct valid labels whose probabilities dominate every
unselected label, and records them reversed, in descending probability
order. -/
theorem top_labels_selection (labels1 labels2 : List Nat) (probs : List ℚ) (K : Nat)
    (hK1 : 1 ≤ K) (hK2 : K ≤ probs.length) :
    explainSelect labels1 (some K) probs = explainSelect labels2 (some K) probs
    ∧ (explainSelect labels1 (some K) probs).1.length = K
    ∧ (explainSelect labels1 (some K) probs).1.Nodup
    ∧ (∀ i ∈ (explainSelect labels1 (some K) probs).1, i < probs.length)
    ∧ (∀ i ∈ (explainSelect labels1 (some K) probs).1, ∀ j : Nat, j < probs.length →
        j ∉ (explainSelect labels1 (some K) probs).1 →
        probs.getD j 0 ≤ probs.getD i 0)
    ∧ (explainSelect labels1 (some K) probs).2 =
        some ((explainSelect labels1 (some K) probs).1.reverse)
    ∧ (explainSelect labels1 (some K) probs).1.reverse.Pairwise
        (fun a b => probs.getD b 0 ≤ probs.getD a 0) := by
  have hK0 : K ≠ 0 := by omega
  have hsel : ∀ ls : List Nat, explainSelect ls (some K) probs =
      ((argsort probs).drop ((argsort probs).length - K),
       some ((argsort probs).drop ((argsort probs).length - K)).reverse) := by
    intro ls
    rw [explainSelect]
    simp only [if_neg hK0]
  haveI htot : IsTotal Nat (fun i j => probs.getD i 0 ≤ probs.getD j 0) :=
    ⟨fun a b => le_total _ _⟩
  haveI htrans : IsTrans Nat (fun i j => probs.getD i 0 ≤ probs.getD j 0) :=
    ⟨fun a b c hab hbc => le_trans hab hbc⟩
  have hperm : (argsort probs).Perm (List.range probs.length) :=
    List.perm_insertionSort _ _
  have hlen : (argsort probs).length = probs.length := by
    rw [hperm.length_eq, List.length_range]
  have hsorted : (argsort probs).Pairwise (fun i j => probs.getD i 0 ≤ probs.getD j 0) :=
    List.sorted_insertionSort _ _
  have hnodup : (argsort probs).Nodup := hperm.nodup_iff.2 (List.nodup_range _)
  have hmemarg : ∀ i : Nat, i ∈ argsort probs ↔ i < probs.length := by
    intro i
    rw [hperm.mem_iff, List.mem_range]
  set sel := (argsort probs).drop ((argsort probs).length - K) with hseldef
  have hsub : sel.Sublist (argsort probs) := List.drop_sublist _ _
  have hsellen : sel.length = K := by
    rw [hseldef, List.length_drop, hlen]
    omega
  have hselnodup : sel.Nodup := List.Sublist.nodup hsub hnodup
  have hselmem : ∀ i ∈ sel, i < probs.length := fun i hi =>
    (hmemarg i).1 (hsub.mem hi)
  have hsplit : (argsort probs).take ((argsort probs).length - K) ++ sel = argsort probs :=
    List.take_append_drop _ _
  have hcross : ∀ a ∈ (argsort probs).take ((argsort probs).length - K), ∀ b ∈ sel,
      probs.getD a 0 ≤ probs.getD b 0 := by
    have := hsplit ▸ hsorted
    exact (List.pairwise_append.1 this).2.2
  have hdom : ∀ i ∈ sel, ∀ j : Nat, j < probs.length → j ∉ sel →
      probs.getD j 0 ≤ probs.getD i 0 := by
    intro i hi j hj hjn
    have hjmem : j ∈ argsort probs := (hmemarg j).2 hj
    rw [← hsplit, List.mem_append] at hjmem
    rcases hjmem with hjt | hjs
    · exact hcross j hjt i hi
    · exact absurd hjs hjn
  have hselsorted : sel.Pairwise (fun i j => probs.getD i 0 ≤ probs.getD j 0) :=
    List.Pairwise.sublist hsub hsorted
  refine ⟨by rw [hsel labels1, hsel labels2], ?_, ?_, ?_, ?_, ?_, ?_⟩
  · rw [hsel labels1]; exact hsellen
  · rw [hsel labels1]; exact hselnodup
  · rw [hsel labels1]; exact hselmem
  · rw [hsel labels1]; exact hdom
  · rw [hsel labels1]
  · rw [hsel labels1]
    exact List.pairwise_reverse.2 hselsorted

theorem bow_remove_removes_all_occurrences_witness :
    (0 < (mkIndexedString ("good movie good".toList) true).num_words
     ∧ 1 < (mkIndexedString ("good movie good".toList) true).as_list.count
        ((mkIndexedString ("good movie good".toList) true).inverse_vocab.getD 0 []))
    ∧ (mkIndexedString ("good movie good".toList) true).inverse_removing [(0 : Int)] =
        some (" movie ".toList) := by
  refine ⟨⟨by decide, by decide⟩, ?_⟩
  have h := bow_remove_removes_all_occurrences ("good movie good".toList) 0
    (by decide) (by decide)
  simp only [Nat.cast_zero] at h
  rw [h]
  decide

theorem positional_distinct_ids_remove_one_witness :
    ((0 : Nat) ≠ 2
     ∧ (mkIndexedString ("good movie good".toList) false).inverse_vocab.getD 0 [] =
       (mkIndexedString ("good movie good".toList) false).inverse_vocab.getD 2 [])
    ∧ (mkIndexedString ("good movie good".toList) false).positions_pos.getD 0 0 ≠
      (mkIndexedString ("good movie good".toList) false).positions_pos.getD 2 0
    ∧ (mkIndexedString ("good movie good".toList) false).inverse_removing [(0 : Int)] =
      some (" movie good".toList) := by
  have h := positional_distinct_ids_remove_one ("good movie good".toList) 0 2
    (by decide) (by decide) (by decide) (by decide)
  simp only [Nat.cast_zero] at h
  refine ⟨⟨by decide, by decide⟩, h.1, ?_⟩
  rw [h.2.2.1]
  decide

theorem invalid_id_fails_witness :
    (((mkIndexedString ("good movie".toList) true).num_words : Int) ≤ 5
      ∨ (5 : Int) < -((mkIndexedString ("good movie".toList) true).num_words : Int))
    ∧ ((mkIndexedString ("good movie".toList) true).word 5 = none
       ∧ (mkIndexedString ("good movie".toList) true).string_position 5 = none
       ∧ (mkIndexedString ("good movie".toList) true).inverse_removing [5] = none) :=
  ⟨Or.inl (by decide), invalid_id_fails ("good movie".toList) true 5 (Or.inl (by decide))⟩

/-- C7 counterexample: minus one is not a valid feature id of the two-word
document, yet all three operations return values (Python negative
indexing) instead of failing. -/
theorem negative_id_returns_value :
    (mkIndexedString ("good movie".toList) true).word (-1) = some ("movie".toList)
    ∧ (mkIndexedString ("good movie".toList) true).string_position (-1) = some [5]
    ∧ (mkIndexedString ("good movie".toList) true).inverse_removing [(-1 : Int)] =
      some ("good ".toList) := by
  exact ⟨by decide, by decide, by decide⟩

theorem empty_neighborhood_fails_witness :
    (mkIndexedString ("good".toList) true).num_words ≤ 1
    ∧ dataLabelsDistances (mkIndexedString ("good".toList) true)
        cfnPerText 5 rvZero chFirst = none :=
  ⟨by decide, empty_neighborhood_fails (mkIndexedString ("good".toList) true)
    cfnPerText 5 rvZero chFirst (by decide)⟩

theorem remove_depends_only_on_id_set_witness :
    (mkIndexedString ("good movie good".toList) true).inverse_removing [0, 1, 0] =
      (mkIndexedString ("good movie good".toList) true).inverse_removing [1, 0]
    ∧ (mkIndexedString ("good movie good".toList) true).inverse_removing [1, 0] =
      some ("  ".toList) := by
  constructor
  · apply remove_depends_only_on_id_set
    intro x
    simp only [List.mem_cons, List.not_mem_nil, or_false]
    tauto
  · decide

theorem row_zero_unperturbed_witness :
    (2 ≤ docGM.num_words ∧ 1 ≤ 2
     ∧ dataLabelsDistances docGM cfnPerText 2 rvZero chFirst =
        some ([[1, 1], [0, 1]], ["good movie".toList, " movie".toList], [[1], [1]],
          distanceRow [[1, 1], [0, 1]]))
    ∧ ([[1, 1], [0, 1]] : List (List ℚ)).head? = some (List.replicate docGM.num_words 1)
    ∧ (["good movie".toList, " movie".toList]).head? = some docGM.raw_string
    ∧ (distanceRow [[1, 1], [0, 1]]).head? = some 0 := by
  have hnd : neighborhoodData docGM 2 rvZero chFirst =
      some ([[1, 1], [0, 1]], ["good movie".toList, " movie".toList]) := by decide
  have heq : dataLabelsDistances docGM cfnPerText 2 rvZero chFirst =
      some ([[1, 1], [0, 1]], ["good movie".toList, " movie".toList], [[1], [1]],
        distanceRow [[1, 1], [0, 1]]) := by
    rw [dataLabelsDistances, hnd]
    rfl
  have h := row_zero_unperturbed docGM cfnPerText 2 rvZero chFirst _ _ _ _
    (by decide) (by norm_num) heq
  exact ⟨⟨by decide, by norm_num, heq⟩, h.1, h.2.1, h.2.2⟩

/-- C9 counterexample: on a batch of two reconstructed texts the classifier
returns a single row; the pipeline still succeeds and hands the one-row
matrix through instead of failing. -/
theorem prediction_shape_mismatch_not_failing :
    (dataLabelsDistances docGM cfnOneRow 2 rvZero chFirst).isSome = true
    ∧ (neighborhoodData docGM 2 rvZero chFirst).map (fun p => p.2.length) = some 2
    ∧ (neighborhoodData docGM 2 rvZero chFirst).map
        (fun p => (cfnOneRow p.2).length) = some 1 := by
  have hnd : neighborhoodData docGM 2 rvZero chFirst =
      some ([[1, 1], [0, 1]], ["good movie".toList, " movie".toList]) := by decide
  refine ⟨?_, ?_, ?_⟩
  · rw [dataLabelsDistances, hnd]; rfl
  · rw [hnd]; rfl
  · rw [hnd]; rfl

theorem top_labels_selection_witness :
    ((1 : Nat) ≤ 2 ∧ 2 ≤ ([1/2, 1/4, 3/4] : List ℚ).length)
    ∧ explainSelect [0] (some 2) [1/2, 1/4, 3/4] =
        explainSelect [5] (some 2) [1/2, 1/4, 3/4]
    ∧ (explainSelect [0] (some 2) [1/2, 1/4, 3/4]).1.length = 2
    ∧ (explainSelect [0] (some 2) [1/2, 1/4, 3/4]).2 =
        some ((explainSelect [0] (some 2) [1/2, 1/4, 3/4]).1.reverse) := by
  have h := top_labels_selection [0] [5] ([1/2, 1/4, 3/4] : List ℚ) 2
    (by norm_num) (by norm_num)
  exact ⟨⟨by norm_num, by norm_num⟩, h.1, h.2.1, h.2.2.2.2.2.1⟩

end LimeText

